import Mathlib

/-!
Verification of the section-authenticated messaging layer of the `routing`
repository, against a shallow Lean embedding of `src/messages/mod.rs`,
`src/section/member_info.rs`, `src/id.rs` and `src/lib.rs`.

Cryptography is idealised: a signature records the signer's public key and
the signed data, and verification is equality of both; canonical (bincode)
serialisation is modelled by the serialised value itself, which is faithful
because the encoding is injective and deterministic.

Modules of the repository that are only referenced from the files above
(`section_proof_chain.rs`, `src_authority.rs`, `variant.rs`, `error.rs`,
the `Node` struct) are modelled from the specification and marked as such
in their doc comments.
-/

namespace Routing

/-- Opaque BLS public key; equality is byte equality (spec section 3). -/
structure BlsPublicKey where
  id : Nat
deriving DecidableEq, Repr

/-- Opaque BLS secret key of the idealised crypto model. -/
structure BlsSecretKey where
  id : Nat
deriving DecidableEq, Repr

/-- The public key derived from a BLS secret key (idealised, injective). -/
def BlsSecretKey.public_key (sk : BlsSecretKey) : BlsPublicKey :=
  ⟨sk.id⟩

/-- An Ed25519 public signing key; its 32 bytes are the node's XOR-name
(spec section 4.C), modelled as a list of bits. -/
structure EdPublicKey where
  bytes : List Bool
deriving DecidableEq, Repr

/-- An Ed25519 secret signing key. -/
structure EdSecretKey where
  bytes : List Bool
deriving DecidableEq, Repr

/-- The public key derived from an Ed25519 secret key (idealised). -/
def EdSecretKey.public_key (sk : EdSecretKey) : EdPublicKey :=
  ⟨sk.bytes⟩

/-- A node's XOR-name: the 32 bytes of its Ed25519 public signing key. -/
abbrev XorName := List Bool

/-- The XOR-name of an Ed25519 public key (`crypto::name`). -/
def name (pk : EdPublicKey) : XorName :=
  pk.bytes

/-- A section's bitstring identifier, modelling `xor_name::Prefix`.
(The Rust name cannot be used in Lean, where it is reserved.) -/
structure Pfx where
  bits : List Bool
deriving DecidableEq, Repr

/-- Whether an XOR-name falls under this `Pfx` (`Prefix::matches`). -/
def Pfx.matchesName (p : Pfx) (n : XorName) : Bool :=
  p.bits.isPrefixOf n

/-- Two `Pfx` values are compatible iff one is an initial segment of the
other (`Prefix::is_compatible`, spec glossary). -/
def Pfx.is_compatible (p q : Pfx) : Bool :=
  p.bits.isPrefixOf q.bits || q.bits.isPrefixOf p.bits

/-- Modelled from the spec: the closed payload union of section 6.
The variant module is not under `src/`, so each payload is abstracted to an
opaque serialised form; the tags are exactly the spec's table. -/
inductive Variant where
  | UserMessage (payload : List Nat)
  | BootstrapRequest (peerName : XorName)
  | BootstrapResponseJoin (eldersInfo : Nat)
  | BootstrapResponseRebootstrap (addrs : List Nat)
  | JoinRequest (proofs : Nat)
  | NodeApproval (provenEldersInfo : Nat)
  | ParsecRequest (version : Nat) (delta : Nat)
  | ParsecResponse (version : Nat) (delta : Nat)
  | BouncedUnknownMessage (message : List Nat) (parsecVersion : Nat)
  | BouncedUntrustedMessage (original : Nat)
  | GenesisUpdate (provenEldersInfo : Nat)
deriving DecidableEq, Repr

/-- Destination location of a message (spec section 3). -/
inductive DstLocation where
  | Node (n : XorName)
  | Section (n : XorName)
  | Direct
deriving DecidableEq, Repr

/-- View of a message that is serialised for the purpose of signing:
exactly the triple `(dst, dst_key, variant)` (`SignableView` in
`src/messages/mod.rs`); `src` is deliberately omitted. -/
structure SignableView where
  dst : DstLocation
  dst_key : Option BlsPublicKey
  variant : Variant
deriving DecidableEq, Repr

/-- Canonical serialised data that signatures are computed over: either the
serialisation of a section key (for proof-chain links) or of a
`SignableView` (for message envelopes). Injectivity of the canonical
encoding lets the encoded value stand for its bytes. -/
inductive SignedData where
  | keyBytes (k : BlsPublicKey)
  | signableBytes (v : SignableView)
deriving DecidableEq, Repr

/-- An idealised BLS signature: records the signer and the signed data. -/
structure BlsSignature where
  signer : BlsPublicKey
  data : SignedData
deriving DecidableEq, Repr

/-- BLS signing in the idealised model. -/
def BlsSecretKey.sign (sk : BlsSecretKey) (d : SignedData) : BlsSignature :=
  ⟨sk.public_key, d⟩

/-- BLS verification: the signature must name this key and this data
(`bls::PublicKey::verify`). -/
def bls_verify (pk : BlsPublicKey) (sig : BlsSignature) (d : SignedData) : Bool :=
  decide (sig.signer = pk ∧ sig.data = d)

/-- BLS verification in method form (`last_key().verify(sig, bytes)`). -/
def BlsPublicKey.verify (pk : BlsPublicKey) (sig : BlsSignature) (d : SignedData) : Bool :=
  bls_verify pk sig d

/-- An idealised Ed25519 signature. -/
structure EdSignature where
  signer : EdPublicKey
  data : SignedData
deriving DecidableEq, Repr

/-- Ed25519 signing (`crypto::sign`). -/
def ed_sign (sk : EdSecretKey) (d : SignedData) : EdSignature :=
  ⟨sk.public_key, d⟩

/-- Ed25519 verification (`ed25519_dalek::PublicKey::verify`), as a
boolean: the `Result` of the Rust API is `Ok` iff this returns `true`. -/
def ed_verify (pk : EdPublicKey) (d : SignedData) (sig : EdSignature) : Bool :=
  decide (sig.signer = pk ∧ sig.data = d)

/-- One non-root element of a section proof chain: a key together with the
signature of the previous key over its serialisation. -/
structure ChainBlock where
  key : BlsPublicKey
  signature : BlsSignature
deriving DecidableEq, Repr

/-- Modelled from the spec: `SectionProofChain` (spec sections 3 and 4.B);
`section_proof_chain.rs` is not under `src/`. A non-empty ordered sequence
of keys: a root key plus blocks, each block carrying the predecessor's
signature over its key. -/
structure SectionProofChain where
  head : BlsPublicKey
  tail : List ChainBlock
deriving DecidableEq, Repr

/-- All keys of the chain, oldest first. -/
def chain_keys (c : SectionProofChain) : List BlsPublicKey :=
  c.head :: c.tail.map ChainBlock.key

/-- The last key of a run of blocks, starting from key `h`. -/
def last_key_from (h : BlsPublicKey) : List ChainBlock → BlsPublicKey
  | [] => h
  | b :: bs => last_key_from b.key bs

/-- The most recent key of the chain (`SectionProofChain::last_key`). -/
def SectionProofChain.last_key (c : SectionProofChain) : BlsPublicKey :=
  last_key_from c.head c.tail

/-- The oldest key of the chain (`SectionProofChain::first_key`). -/
def SectionProofChain.first_key (c : SectionProofChain) : BlsPublicKey :=
  c.head

/-- Linear membership of a key (`SectionProofChain::has_key`). -/
def SectionProofChain.has_key (c : SectionProofChain) (k : BlsPublicKey) : Bool :=
  decide (k ∈ chain_keys c)

/-- Does every link of the run verify, starting from key `h`?  A link from
`prev` to block `b` verifies when `b.signature` is `prev`'s signature over
the serialisation of `b.key` (spec section 3 invariant). -/
def links_valid_from (h : BlsPublicKey) : List ChainBlock → Bool
  | [] => true
  | b :: bs => bls_verify h b.signature (.keyBytes b.key) && links_valid_from b.key bs

/-- Does every link of the whole chain verify? -/
def SectionProofChain.all_links_valid (c : SectionProofChain) : Bool :=
  links_valid_from c.head c.tail

/-- The key at position `n` of the chain with root `h` and blocks `bs`
(position 0 is the root); out-of-range positions return `h`. -/
def key_at : BlsPublicKey → List ChainBlock → Nat → BlsPublicKey
  | h, _, 0 => h
  | h, [], _ + 1 => h
  | _, b :: bs, n + 1 => key_at b.key bs n

/-- The position of the first occurrence of `target` among the keys of the
chain with root `h` and blocks `bs`, if any. -/
def idx_of (target : BlsPublicKey) : BlsPublicKey → List ChainBlock → Option Nat
  | h, [] => if target = h then some 0 else none
  | h, b :: bs' =>
    if target = h then some 0 else (idx_of target b.key bs').map (· + 1)

/-- Modelled from the spec: errors of `SectionProofChain::extend`
(spec section 4.B). -/
inductive ExtendError where
  | KeyNotFound
  | Incompatible
deriving DecidableEq, Repr

/-- Modelled from the spec: `SectionProofChain::extend` (spec section 4.B).
If `new_first` is already the first key, no-op; otherwise locate
`new_first` at position `i` and the current first key at position `j`
within `donor`, fail with `KeyNotFound` if either is absent and with
`Incompatible` if `i > j`, and prepend the donor segment between them so
the result starts at `new_first` and ends at the original last key. -/
def SectionProofChain.extend (c : SectionProofChain) (new_first : BlsPublicKey)
    (donor : SectionProofChain) : Except ExtendError SectionProofChain :=
  if new_first = c.head then .ok c
  else
    match idx_of new_first donor.head donor.tail, idx_of c.head donor.head donor.tail with
    | some i, some j =>
      if i > j then .error .Incompatible
      else .ok ⟨new_first, (donor.tail.drop i).take (j - i) ++ c.tail⟩
    | _, _ => .error .KeyNotFound

/-- Trust classification of a proof chain (spec section 4.B). -/
inductive TrustStatus where
  | Trusted
  | Unknown
  | Invalid
deriving DecidableEq, Repr

/-- The position of the earliest chain key that belongs to the trusted set,
if any. -/
def find_trusted_idx (trusted : List BlsPublicKey) :
    BlsPublicKey → List ChainBlock → Option Nat
  | h, [] => if h ∈ trusted then some 0 else none
  | h, b :: bs' =>
    if h ∈ trusted then some 0 else (find_trusted_idx trusted b.key bs').map (· + 1)

/-- Modelled from the spec: `SectionProofChain::check_trust`
(spec section 4.B).  The earliest trusted key determines the status: the
verifier walks forward from it and the chain is `Trusted` iff every link
from that key to the last verifies; with no trusted key the chain is
`Unknown` when all links verify and `Invalid` otherwise. -/
def SectionProofChain.check_trust (c : SectionProofChain)
    (trusted : List BlsPublicKey) : TrustStatus :=
  match find_trusted_idx trusted c.head c.tail with
  | some p =>
    if links_valid_from (key_at c.head c.tail p) (c.tail.drop p) then .Trusted else .Invalid
  | none =>
    if links_valid_from c.head c.tail then .Unknown else .Invalid

/-- Modelled from the spec: the source authority of a message
(`src_authority.rs` is not under `src/`; spec section 3). -/
inductive SrcAuthority where
  | Node (public_key : EdPublicKey) (age : Nat) (signature : EdSignature)
  | Section (pfx : Pfx) (signature : BlsSignature)
deriving DecidableEq, Repr

/-- Modelled from the spec: the error taxonomy of section 7 restricted to
the kinds the messaging layer raises (`error.rs` is not under `src/`). -/
inductive RoutingError where
  | FailedSignature
  | UntrustedMessage
  | InvalidMessage
deriving DecidableEq, Repr

/-- Verification status of a message (`VerifyStatus` in
`src/messages/mod.rs`). -/
inductive VerifyStatus where
  | Full
  | Unknown
deriving DecidableEq, Repr

/-- Error returned from `Message::from_bytes` and the constructors
(`CreateError`); the bincode arm never arises in the model, in which
canonical serialisation is total. -/
inductive CreateError where
  | FailedSignature
deriving DecidableEq, Repr

/-- Error returned from `Message::extend_proof_chain`
(`ExtendProofChainError`). -/
inductive ExtendProofChainError where
  | NoProofChain
  | Extend (e : ExtendError)
deriving DecidableEq, Repr

/-- The serialised fields of a message: the wire format is a canonical
injective encoding of the struct `Message` minus its two `serde(skip)`
fields, so the encoded record stands for the bytes. -/
structure WireData where
  src : SrcAuthority
  dst : DstLocation
  variant : Variant
  proof_chain : Option SectionProofChain
  dst_key : Option BlsPublicKey
deriving DecidableEq, Repr

/-- SHA3-256 digest of canonical message bytes (`MessageHash`), idealised
as the bytes themselves (injective, deterministic). -/
def MessageHash := WireData
deriving DecidableEq, Repr

/-- The hash of a serialised message (`MessageHash::from_bytes`). -/
def MessageHash.from_bytes (b : WireData) : MessageHash := b

/-- The message envelope of `src/messages/mod.rs`, including the two
derived, non-serialised fields. -/
structure Message where
  src : SrcAuthority
  dst : DstLocation
  variant : Variant
  proof_chain : Option SectionProofChain
  dst_key : Option BlsPublicKey
  serialized : WireData
  hash : MessageHash
deriving DecidableEq, Repr

/-- The signable bytes of a triple `(dst, dst_key, variant)`:
`bincode::serialize` of the `SignableView`. -/
def signable_bytes (dst : DstLocation) (dst_key : Option BlsPublicKey)
    (variant : Variant) : SignedData :=
  .signableBytes ⟨dst, dst_key, variant⟩

/-- The signable bytes recomputed from a wire record. -/
def WireData.signable (w : WireData) : SignedData :=
  signable_bytes w.dst w.dst_key w.variant

/-- The signable bytes recomputed from a message. -/
def Message.signable (m : Message) : SignedData :=
  signable_bytes m.dst m.dst_key m.variant

/-- Modelled from the spec: variant-specific verification for Node-src
messages (spec section 4.G).  Only `NodeApproval` carries extra
verification — it checks its proven elders-info against the attached proof
chain and the trusted keys; with its payload abstract, the model checks the
attached chain's trust.  All other variants verify fully. -/
def Variant.verify (v : Variant) (proof_chain : Option SectionProofChain)
    (trusted : List BlsPublicKey) : Except RoutingError VerifyStatus :=
  match v with
  | .NodeApproval _ =>
    match proof_chain with
    | none => .error .InvalidMessage
    | some pc =>
      match pc.check_trust trusted with
      | .Trusted => .ok .Full
      | .Unknown => .ok .Unknown
      | .Invalid => .error .UntrustedMessage
  | _ => .ok .Full

/-- Deserialise a received message (`Message::from_bytes`): decode, then
run the single-signature check.  A Node source must carry a valid Ed25519
signature over the signable view; a Section source is checked against the
proof chain's last key only when a proof chain is present (the source has
no else branch for an absent chain). -/
def Message.from_bytes (bytes : WireData) : Except CreateError Message :=
  let signed_bytes := bytes.signable
  let check : Except CreateError Unit :=
    match bytes.src with
    | .Node public_key _ signature =>
      if ed_verify public_key signed_bytes signature then .ok () else .error .FailedSignature
    | .Section _ signature =>
      match bytes.proof_chain with
      | some proof_chain =>
        if proof_chain.last_key.verify signature signed_bytes then .ok ()
        else .error .FailedSignature
      | none => .ok ()
  match check with
  | .error e => .error e
  | .ok () =>
    .ok
      { src := bytes.src, dst := bytes.dst, variant := bytes.variant
        proof_chain := bytes.proof_chain, dst_key := bytes.dst_key
        serialized := bytes, hash := MessageHash.from_bytes bytes }

/-- The canonical bytes of the message, ready to send
(`Message::to_bytes`). -/
def Message.to_bytes (m : Message) : WireData :=
  m.serialized

/-- Create a signed message whose signature is assumed valid
(`Message::new_signed`); total here because canonical serialisation is. -/
def Message.new_signed (src : SrcAuthority) (dst : DstLocation) (variant : Variant)
    (proof_chain : Option SectionProofChain) (dst_key : Option BlsPublicKey) : Message :=
  let wire : WireData :=
    { src := src, dst := dst, variant := variant
      proof_chain := proof_chain, dst_key := dst_key }
  { src := src, dst := dst, variant := variant
    proof_chain := proof_chain, dst_key := dst_key
    serialized := wire, hash := MessageHash.from_bytes wire }

/-- Modelled from the spec: the parts of the `Node` struct the messaging
layer uses (its module is not under `src/`): the Ed25519 keypair, stood
for by its secret key, and the node's age. -/
structure Node where
  keypair : EdSecretKey
  age : Nat

/-- Create a signed message from a single node (`Message::single_src`):
Ed25519-sign the signable view with the node's secret key. -/
def Message.single_src (node : Node) (dst : DstLocation) (variant : Variant)
    (proof_chain : Option SectionProofChain) (dst_key : Option BlsPublicKey) : Message :=
  let serialized := signable_bytes dst dst_key variant
  let signature := ed_sign node.keypair serialized
  let src := SrcAuthority.Node node.keypair.public_key node.age signature
  Message.new_signed src dst variant proof_chain dst_key

/-- The canonical pre-signature content of a section message
(`PlainMessage`). -/
structure PlainMessage where
  src : Pfx
  dst : DstLocation
  dst_key : BlsPublicKey
  variant : Variant
deriving DecidableEq, Repr

/-- Create a signed message from a section (`Message::section_src`); the
combined `signature` is assumed valid and not re-verified. -/
def Message.section_src (plain : PlainMessage) (signature : BlsSignature)
    (proof_chain : SectionProofChain) : Message :=
  Message.new_signed (.Section plain.src signature) plain.dst plain.variant
    (some proof_chain) (some plain.dst_key)

/-- The anchors relevant to a message: trusted `(Pfx, key)` pairs kept by
the source-dependent filter of `Message::verify` — for a Node source those
whose `Pfx` matches the name of the source public key, for a Section
source those whose `Pfx` is compatible with the source `Pfx`. -/
def Message.relevant_anchors (m : Message) (trusted_keys : List (Pfx × BlsPublicKey)) :
    List (Pfx × BlsPublicKey) :=
  match m.src with
  | .Node public_key _ _ =>
    trusted_keys.filter fun p => p.1.matchesName (name public_key)
  | .Section pfx _ =>
    trusted_keys.filter fun p => pfx.is_compatible p.1

/-- Verify that a message is properly signed and trusted
(`Message::verify`). -/
def Message.verify (m : Message) (trusted_keys : List (Pfx × BlsPublicKey)) :
    Except RoutingError VerifyStatus :=
  let bytes := m.signable
  match m.src with
  | .Node public_key _ signature =>
    if ed_verify public_key bytes signature then
      let trusted :=
        ((trusted_keys.filter fun p => p.1.matchesName (name public_key)).map Prod.snd)
      m.variant.verify m.proof_chain trusted
    else .error .FailedSignature
  | .Section pfx signature =>
    match m.proof_chain with
    | none => .error .InvalidMessage
    | some proof_chain =>
      if proof_chain.last_key.verify signature bytes then
        let trusted :=
          ((trusted_keys.filter fun p => pfx.is_compatible p.1).map Prod.snd)
        match proof_chain.check_trust trusted with
        | .Trusted => .ok .Full
        | .Unknown => .ok .Unknown
        | .Invalid => .error .UntrustedMessage
      else .error .FailedSignature

/-- Extend the message's proof chain so it starts at `new_first_key` while
keeping the last key, and therefore the signature, intact
(`Message::extend_proof_chain`). -/
def Message.extend_proof_chain (m : Message) (new_first_key : BlsPublicKey)
    (section_proof_chain : SectionProofChain) :
    Except ExtendProofChainError Message :=
  match m.proof_chain with
  | none => .error .NoProofChain
  | some proof_chain =>
    match proof_chain.extend new_first_key section_proof_chain with
    | .error e => .error (.Extend e)
    | .ok extended =>
      .ok (Message.new_signed m.src m.dst m.variant (some extended) m.dst_key)

/-- Field-wise message equality (`impl PartialEq for Message`): compares
`src`, `dst`, `variant`, `proof_chain` and `dst_key` and ignores the
derived `serialized` and `hash` fields. -/
def message_eq (a b : Message) : Bool :=
  decide (a.src = b.src) && decide (a.dst = b.dst) && decide (a.variant = b.variant)
    && decide (a.proof_chain = b.proof_chain) && decide (a.dst_key = b.dst_key)

/-- Quorum numerator (`QUORUM_NUMERATOR` in `src/lib.rs`). -/
def QUORUM_NUMERATOR : Nat := 2

/-- Quorum denominator (`QUORUM_DENOMINATOR` in `src/lib.rs`). -/
def QUORUM_DENOMINATOR : Nat := 3

/-- Number of elders per section (`ELDER_SIZE` in `src/lib.rs`). -/
def ELDER_SIZE : Nat := 7

/-- The quorum predicate of `src/lib.rs`: strictly greater than
`QUORUM_NUMERATOR / QUORUM_DENOMINATOR` agreement, checked with integer
arithmetic as `votes * QUORUM_DENOMINATOR > voters * QUORUM_NUMERATOR`. -/
def quorum (voters votes : Nat) : Bool :=
  decide (votes * QUORUM_DENOMINATOR > voters * QUORUM_NUMERATOR)

/-- Largest value of the Rust `u32` type. -/
def U32_MAX : Nat := 2 ^ 32 - 1

/-- The churn-event counter of `src/section/member_info.rs`, a `u32`
modelled as a `Nat` that the operations keep at most `U32_MAX`. -/
structure AgeCounter where
  val : Nat
deriving DecidableEq, Repr

/-- The minimum age a node can have (`MIN_AGE`). -/
def MIN_AGE : Nat := 4

/-- Create an `AgeCounter` with the given age (`AgeCounter::from_age`):
`2_u32.saturating_pow(age.max(MIN_AGE))`, so ages below `MIN_AGE` are
silently clamped up and the power saturates at `U32_MAX`. -/
def AgeCounter.from_age (age : Nat) : AgeCounter :=
  ⟨min (2 ^ max age MIN_AGE) U32_MAX⟩

/-- The age stored in the counter (`AgeCounter::age`):
`32 - leading_zeros - 1`, which for the nonzero values the API produces is
the floor base-2 logarithm. -/
def AgeCounter.age (c : AgeCounter) : Nat :=
  Nat.log2 c.val

/-- Whether a number is a power of two (`u32::is_power_of_two`). -/
def is_power_of_two (n : Nat) : Bool :=
  decide (n ≠ 0 ∧ 2 ^ Nat.log2 n = n)

/-- Increment the counter and return it with whether the age increased
(`AgeCounter::increment`): `checked_add(1)` succeeds only below `U32_MAX`,
and the age advances exactly when the new value is a power of two; on
overflow the counter is unchanged and `false` is returned. -/
def AgeCounter.increment (c : AgeCounter) : AgeCounter × Bool :=
  if c.val + 1 ≤ U32_MAX then (⟨c.val + 1⟩, is_power_of_two (c.val + 1))
  else (c, false)

/-- The minimum allowed value of the age counter (`MIN_AGE_COUNTER`),
equivalent to the minimum age of 4. -/
def MIN_AGE_COUNTER : AgeCounter := ⟨16⟩

/-- The default age counter (`impl Default for AgeCounter`). -/
def AgeCounter.default : AgeCounter := MIN_AGE_COUNTER

/-- Membership state of a section member (`MemberState`). -/
inductive MemberState where
  | Joined
  | Relocating
  | Left
deriving DecidableEq, Repr

/-- A socket address; a standard-library type external to the repository,
held abstract here. -/
structure SocketAddr where
  addr : Nat
deriving DecidableEq, Repr

/-- Wrapper for `SocketAddr` that adds ordering and hashing
(`OrderedSocketAddr` in `src/id.rs`). -/
structure OrderedSocketAddr where
  addr : SocketAddr
deriving DecidableEq, Repr

/-- The XOR-name derived from a public signing key (`name_from_key` in
`src/id.rs`): the 32 bytes of the key. -/
def name_from_key (public_key : EdPublicKey) : XorName :=
  public_key.bytes

/-- Network identity component containing name and public keys
(`PublicId` in `src/id.rs`); the name is calculated from the public
signing key, and the encryption key is a BLS key per `crypto::encryption`. -/
structure PublicId where
  pid_name : XorName
  public_signing_key : EdPublicKey
  public_encryption_key : BlsPublicKey
deriving DecidableEq, Repr

/-- Creates a `PublicId` (`PublicId::new`), deriving the name from the
public signing key. -/
def PublicId.new (public_signing_key : EdPublicKey)
    (public_encryption_key : BlsPublicKey) : PublicId :=
  { pid_name := name_from_key public_signing_key
    public_signing_key := public_signing_key
    public_encryption_key := public_encryption_key }

/-- Network p2p node identity (`P2pNode` in `src/id.rs`): a public id
together with the peer's socket address. -/
structure P2pNode where
  public_id : PublicId
  peer_addr : OrderedSocketAddr
deriving DecidableEq, Repr

/-- Creates a new `P2pNode` (`P2pNode::new`). -/
def P2pNode.new (public_id : PublicId) (addr : SocketAddr) : P2pNode :=
  { public_id := public_id, peer_addr := ⟨addr⟩ }

/-- The XOR-name of the underlying `PublicId` (`P2pNode::name`). -/
def P2pNode.node_name (p : P2pNode) : XorName :=
  p.public_id.pid_name

/-- Modelled from the spec: a consensus proof over a member record (the
consensus module is not under `src/`): a section key and a signature. -/
structure ConsensusProof where
  public_key : BlsPublicKey
  signature : BlsSignature
deriving DecidableEq, Repr

/-- Information about a member of our section (`MemberInfo`). -/
structure MemberInfo where
  age_counter : AgeCounter
  state : MemberState
  p2p_node : P2pNode
  proof : ConsensusProof
deriving DecidableEq, Repr

/-- Create a new `MemberInfo` in the `Joined` state (`MemberInfo::new`). -/
def MemberInfo.new (age : Nat) (p2p_node : P2pNode) (proof : ConsensusProof) : MemberInfo :=
  { age_counter := AgeCounter.from_age age, state := .Joined
    p2p_node := p2p_node, proof := proof }

/-- The age of a member (`MemberInfo::age`). -/
def MemberInfo.age (m : MemberInfo) : Nat :=
  m.age_counter.age

/-- Ordering on verification statuses: `Unknown` is below `Full`. -/
def status_le : VerifyStatus → VerifyStatus → Bool
  | .Unknown, _ => true
  | .Full, s => decide (s = .Full)

/-- The messages the core produces: `single_src`, `section_src` with a
valid combined signature, or a successful `from_bytes`. -/
inductive ProducedByCore : Message → Prop where
  | single_src (node : Node) (dst : DstLocation) (variant : Variant)
      (proof_chain : Option SectionProofChain) (dst_key : Option BlsPublicKey) :
      ProducedByCore (Message.single_src node dst variant proof_chain dst_key)
  | section_src (plain : PlainMessage) (signature : BlsSignature)
      (proof_chain : SectionProofChain)
      (hsig : proof_chain.last_key.verify signature
        (signable_bytes plain.dst (some plain.dst_key) plain.variant) = true) :
      ProducedByCore (Message.section_src plain signature proof_chain)
  | from_bytes (b : WireData) (m : Message) (h : Message.from_bytes b = .ok m) :
      ProducedByCore m

/-- Fixture: a BLS secret key. -/
def sk0 : BlsSecretKey := ⟨0⟩

/-- Fixture: a second BLS secret key. -/
def sk1 : BlsSecretKey := ⟨1⟩

/-- Fixture: public key of `sk0`. -/
def pk0 : BlsPublicKey := sk0.public_key

/-- Fixture: public key of `sk1`. -/
def pk1 : BlsPublicKey := sk1.public_key

/-- Fixture: the two-key chain `[pk0, pk1]` with a valid link. -/
def chain01 : SectionProofChain := ⟨pk0, [⟨pk1, sk0.sign (.keyBytes pk1)⟩]⟩

/-- Fixture: the one-key chain `[pk1]`. -/
def chain1 : SectionProofChain := ⟨pk1, []⟩

/-- Fixture: a node identity. -/
def nodeA : Node := ⟨⟨[true, false]⟩, 10⟩

/-- Fixture: a Node-src message signed by `nodeA`. -/
def msgA : Message :=
  Message.single_src nodeA (.Section [true]) (.UserMessage [1, 2]) (some chain1) (some pk1)

/-- Fixture: the plain content of a section message. -/
def plainS : PlainMessage := ⟨⟨[]⟩, .Direct, pk1, .UserMessage [3]⟩

/-- Fixture: a valid combined section signature over `plainS`'s signable
view. -/
def sigS : BlsSignature :=
  sk1.sign (signable_bytes plainS.dst (some plainS.dst_key) plainS.variant)

/-- Fixture: a Section-src message carrying `chain1` and signed by the
section key `pk1`. -/
def msgS : Message := Message.section_src plainS sigS chain1

/-- Fixture: the message obtained from `msgS` by extending its proof chain
back to `pk0` using `chain01` as donor. -/
def msgSx : Message :=
  Message.new_signed msgS.src msgS.dst msgS.variant (some chain01) msgS.dst_key

/-- Fixture: a Section-src message with no proof chain and a junk
signature, built directly through the internal constructor. -/
def msgNC : Message :=
  Message.new_signed (.Section ⟨[]⟩ ⟨⟨999⟩, .keyBytes ⟨999⟩⟩) .Direct (.UserMessage []) none none

/-- Fixture: the wire bytes of `msgNC`: a Section-src envelope whose
`proof_chain` field is absent and whose signature verifies nothing. -/
def wireNC : WireData :=
  { src := .Section ⟨[]⟩ ⟨⟨999⟩, .keyBytes ⟨999⟩⟩, dst := .Direct
    variant := .UserMessage [], proof_chain := none, dst_key := none }

theorem last_key_from_append (xs ys : List ChainBlock) (h : BlsPublicKey) :
    last_key_from h (xs ++ ys) = last_key_from (last_key_from h xs) ys := by
  induction xs generalizing h with
  | nil => rfl
  | cons b bs ih => simp [last_key_from, ih]

theorem links_valid_from_append (xs ys : List ChainBlock) (h : BlsPublicKey) :
    links_valid_from h (xs ++ ys) =
      (links_valid_from h xs && links_valid_from (last_key_from h xs) ys) := by
  induction xs generalizing h with
  | nil => simp [links_valid_from, last_key_from]
  | cons b bs ih => simp [links_valid_from, last_key_from, ih, Bool.and_assoc]

theorem links_valid_from_take (n : Nat) (bs : List ChainBlock) (h : BlsPublicKey)
    (hv : links_valid_from h bs = true) :
    links_valid_from h (bs.take n) = true := by
  induction bs generalizing h n with
  | nil => simp [links_valid_from]
  | cons b bs ih =>
    cases n with
    | zero => rfl
    | succ n =>
      simp only [links_valid_from, Bool.and_eq_true] at hv
      simp only [List.take_succ_cons, links_valid_from, Bool.and_eq_true]
      exact ⟨hv.1, ih n b.key hv.2⟩

theorem links_valid_from_drop (n : Nat) (bs : List ChainBlock) (h : BlsPublicKey)
    (hv : links_valid_from h bs = true) :
    links_valid_from (key_at h bs n) (bs.drop n) = true := by
  induction bs generalizing h n with
  | nil => cases n <;> simp [key_at, links_valid_from]
  | cons b bs ih =>
    cases n with
    | zero => simpa [key_at] using hv
    | succ n =>
      simp only [links_valid_from, Bool.and_eq_true] at hv
      simpa [key_at, List.drop_succ_cons] using ih n b.key hv.2

theorem idx_of_key_at (t h : BlsPublicKey) (bs : List ChainBlock) (n : Nat)
    (hidx : idx_of t h bs = some n) : key_at h bs n = t := by
  induction bs generalizing h n with
  | nil =>
    by_cases ht : t = h
    · simp [idx_of, ht] at hidx
      subst hidx
      simp [key_at, ht]
    · simp [idx_of, ht] at hidx
  | cons b bs ih =>
    by_cases ht : t = h
    · simp [idx_of, ht] at hidx
      subst hidx
      simp [key_at, ht]
    · simp only [idx_of, if_neg ht, Option.map_eq_some'] at hidx
      obtain ⟨m, hm, rfl⟩ := hidx
      simpa [key_at] using ih b.key m hm

theorem idx_of_le_length (t h : BlsPublicKey) (bs : List ChainBlock) (n : Nat)
    (hidx : idx_of t h bs = some n) : n ≤ bs.length := by
  induction bs generalizing h n with
  | nil =>
    by_cases ht : t = h
    · simp [idx_of, ht] at hidx
      omega
    · simp [idx_of, ht] at hidx
  | cons b bs ih =>
    by_cases ht : t = h
    · simp [idx_of, ht] at hidx
      omega
    · simp only [idx_of, if_neg ht, Option.map_eq_some'] at hidx
      obtain ⟨m, hm, rfl⟩ := hidx
      have := ih b.key m hm
      simp only [List.length_cons]
      omega

theorem last_key_from_take (m : Nat) (bs : List ChainBlock) (h : BlsPublicKey)
    (hm : m ≤ bs.length) : last_key_from h (bs.take m) = key_at h bs m := by
  induction bs generalizing h m with
  | nil =>
    have : m = 0 := by simpa using hm
    subst this
    rfl
  | cons b bs ih =>
    cases m with
    | zero => rfl
    | succ m =>
      simp only [List.take_succ_cons, last_key_from, key_at]
      exact ih m b.key (by simpa using hm)

theorem key_at_drop (n m : Nat) (bs : List ChainBlock) (h : BlsPublicKey)
    (hn : n ≤ bs.length) :
    key_at (key_at h bs n) (bs.drop n) m = key_at h bs (n + m) := by
  induction bs generalizing h n with
  | nil =>
    have : n = 0 := by simpa using hn
    subst this
    simp [key_at]
  | cons b bs ih =>
    cases n with
    | zero => simp [key_at]
    | succ n =>
      have hrec := ih n b.key (by simpa using hn)
      simpa [key_at, List.drop_succ_cons, Nat.succ_add] using hrec

theorem last_key_from_mem (bs : List ChainBlock) (h : BlsPublicKey) :
    last_key_from h bs ∈ h :: bs.map ChainBlock.key := by
  induction bs generalizing h with
  | nil => simp [last_key_from]
  | cons b bs ih =>
    have := ih b.key
    simp only [last_key_from, List.map_cons, List.mem_cons] at this ⊢
    tauto

theorem find_trusted_idx_eq_none (T : List BlsPublicKey) (bs : List ChainBlock)
    (h : BlsPublicKey) :
    find_trusted_idx T h bs = none ↔ ∀ k ∈ h :: bs.map ChainBlock.key, k ∉ T := by
  induction bs generalizing h with
  | nil => by_cases hh : h ∈ T <;> simp [find_trusted_idx, hh]
  | cons b bs ih =>
    by_cases hh : h ∈ T
    · simp [find_trusted_idx, hh]
    · simp only [find_trusted_idx, if_neg hh, Option.map_eq_none', ih, List.map_cons,
        List.mem_cons]
      constructor
      · rintro hall k (rfl | hk)
        · exact hh
        · exact hall k hk
      · intro hall k hk
        exact hall k (Or.inr hk)

theorem find_trusted_idx_isSome (T : List BlsPublicKey) (bs : List ChainBlock)
    (h k : BlsPublicKey) (hk : k ∈ h :: bs.map ChainBlock.key) (hT : k ∈ T) :
    (find_trusted_idx T h bs).isSome = true := by
  rcases hfind : find_trusted_idx T h bs with _ | p
  · rw [find_trusted_idx_eq_none] at hfind
    exact absurd hT (hfind k hk)
  · rfl

theorem find_trusted_idx_some_exists (T : List BlsPublicKey) (bs : List ChainBlock)
    (h : BlsPublicKey) (p : Nat) (hf : find_trusted_idx T h bs = some p) :
    ∃ k ∈ h :: bs.map ChainBlock.key, k ∈ T := by
  by_contra hnone
  push_neg at hnone
  have : find_trusted_idx T h bs = none := by
    rw [find_trusted_idx_eq_none]
    exact hnone
  rw [this] at hf
  exact Option.noConfusion hf

theorem check_trust_all_valid (c : SectionProofChain) (T : List BlsPublicKey)
    (hv : c.all_links_valid = true) :
    (c.check_trust T = .Trusted ∨ c.check_trust T = .Unknown) ∧
    (c.check_trust T = .Trusted ↔ ∃ k ∈ chain_keys c, k ∈ T) := by
  unfold SectionProofChain.check_trust
  rcases hfind : find_trusted_idx T c.head c.tail with _ | p
  · dsimp only
    rw [if_pos (show links_valid_from c.head c.tail = true from hv)]
    refine ⟨Or.inr rfl, ?_⟩
    simp only [reduceCtorEq, false_iff]
    rw [find_trusted_idx_eq_none] at hfind
    rintro ⟨k, hk, hT⟩
    exact hfind k hk hT
  · dsimp only
    rw [if_pos (links_valid_from_drop p c.tail c.head hv)]
    refine ⟨Or.inl rfl, ?_⟩
    simp only [true_iff]
    exact find_trusted_idx_some_exists T c.tail c.head p hfind

theorem extend_ok_cases (c donor c' : SectionProofChain) (nf : BlsPublicKey)
    (hx : c.extend nf donor = .ok c') :
    (nf = c.head ∧ c' = c) ∨
    ∃ i j, idx_of nf donor.head donor.tail = some i ∧
      idx_of c.head donor.head donor.tail = some j ∧ i ≤ j ∧
      c' = ⟨nf, (donor.tail.drop i).take (j - i) ++ c.tail⟩ := by
  unfold SectionProofChain.extend at hx
  by_cases h1 : nf = c.head
  · rw [if_pos h1] at hx
    exact Or.inl ⟨h1, (Except.ok.inj hx).symm⟩
  · rw [if_neg h1] at hx
    rcases hi : idx_of nf donor.head donor.tail with _ | i <;>
      rcases hj : idx_of c.head donor.head donor.tail with _ | j <;>
      rw [hi, hj] at hx <;>
      simp only [] at hx
    · exact absurd hx (by simp)
    · exact absurd hx (by simp)
    · exact absurd hx (by simp)
    · by_cases hij : i > j
      · rw [if_pos hij] at hx
        exact absurd hx (by simp)
      · rw [if_neg hij] at hx
        exact Or.inr ⟨i, j, rfl, rfl, by omega, (Except.ok.inj hx).symm⟩

theorem extend_seg_last (donor : SectionProofChain) (i j : Nat) (nf ch : BlsPublicKey)
    (hi : idx_of nf donor.head donor.tail = some i)
    (hj : idx_of ch donor.head donor.tail = some j)
    (hij : i ≤ j) :
    last_key_from nf ((donor.tail.drop i).take (j - i)) = ch := by
  have hnf := idx_of_key_at nf donor.head donor.tail i hi
  have hch := idx_of_key_at ch donor.head donor.tail j hj
  have hjl := idx_of_le_length ch donor.head donor.tail j hj
  have hil : i ≤ donor.tail.length := le_trans hij hjl
  rw [← hnf]
  rw [last_key_from_take (j - i) (donor.tail.drop i) _ (by simp; omega)]
  rw [key_at_drop i (j - i) donor.tail donor.head hil]
  rw [show i + (j - i) = j by omega]
  exact hch

theorem extend_ok_first (c donor c' : SectionProofChain) (nf : BlsPublicKey)
    (hx : c.extend nf donor = .ok c') : c'.first_key = nf := by
  rcases extend_ok_cases c donor c' nf hx with ⟨h1, rfl⟩ | ⟨i, j, hi, hj, hij, rfl⟩
  · exact h1.symm
  · rfl

theorem extend_ok_last (c donor c' : SectionProofChain) (nf : BlsPublicKey)
    (hx : c.extend nf donor = .ok c') : c'.last_key = c.last_key := by
  rcases extend_ok_cases c donor c' nf hx with ⟨h1, rfl⟩ | ⟨i, j, hi, hj, hij, rfl⟩
  · rfl
  · show last_key_from nf _ = c.last_key
    rw [last_key_from_append, extend_seg_last donor i j nf c.head hi hj hij]
    rfl

theorem extend_ok_valid (c donor c' : SectionProofChain) (nf : BlsPublicKey)
    (hvc : c.all_links_valid = true) (hvd : donor.all_links_valid = true)
    (hx : c.extend nf donor = .ok c') : c'.all_links_valid = true := by
  rcases extend_ok_cases c donor c' nf hx with ⟨h1, rfl⟩ | ⟨i, j, hi, hj, hij, rfl⟩
  · exact hvc
  · show links_valid_from nf _ = true
    rw [links_valid_from_append, extend_seg_last donor i j nf c.head hi hj hij,
      Bool.and_eq_true]
    refine ⟨?_, hvc⟩
    rw [← idx_of_key_at nf donor.head donor.tail i hi]
    exact links_valid_from_take _ _ _ (links_valid_from_drop i donor.tail donor.head hvd)

theorem extend_ok_keys (c donor c' : SectionProofChain) (nf k : BlsPublicKey)
    (hx : c.extend nf donor = .ok c') (hk : k ∈ chain_keys c) : k ∈ chain_keys c' := by
  rcases extend_ok_cases c donor c' nf hx with ⟨h1, rfl⟩ | ⟨i, j, hi, hj, hij, rfl⟩
  · exact hk
  · have hseg := extend_seg_last donor i j nf c.head hi hj hij
    have hmem := last_key_from_mem ((donor.tail.drop i).take (j - i)) nf
    rw [hseg] at hmem
    simp only [chain_keys, List.map_append, List.mem_cons, List.mem_append] at hk hmem ⊢
    rcases hk with rfl | hk
    · tauto
    · tauto

theorem log2_two_pow (a : Nat) : Nat.log2 (2 ^ a) = a := by
  rw [Nat.log2_eq_log_two, Nat.log_pow (by norm_num)]

theorem from_age_val_of_le (a : Nat) (h4 : MIN_AGE ≤ a) (h31 : a ≤ 31) :
    (AgeCounter.from_age a).val = 2 ^ a := by
  have hmax : max a MIN_AGE = a := Nat.max_eq_left h4
  have hpow : 2 ^ a ≤ U32_MAX := by
    have h1 : (2 : Nat) ^ a ≤ 2 ^ 31 := Nat.pow_le_pow_right (by norm_num) h31
    have h2 : (2 : Nat) ^ 31 ≤ U32_MAX := by norm_num [U32_MAX]
    omega
  simp [AgeCounter.from_age, hmax, Nat.min_eq_left hpow]

theorem from_age_age_of_le (a : Nat) (h4 : MIN_AGE ≤ a) (h31 : a ≤ 31) :
    (AgeCounter.from_age a).age = a := by
  show Nat.log2 (AgeCounter.from_age a).val = a
  rw [from_age_val_of_le a h4 h31, log2_two_pow]

/-- C7 counterexample: at 7 voters the quorum predicate
`votes * 3 > voters * 2` is reached with 5 votes, which is
`floor(2n/3) + 1`, while the claimed coinciding formula `ceil(2n/3) + 1`
would demand 6; the floor and ceiling thresholds differ at n = 7, so the
claim's asserted coincidence is false. -/
theorem c7_counterexample :
    quorum 7 5 = true ∧ (2 * 7) / 3 + 1 = 5 ∧ (2 * 7 + 2) / 3 + 1 = 6 ∧
      (2 * 7) / 3 ≠ (2 * 7 + 2) / 3 := by
  decide

/-- C7 (amended): votes constitute a quorum exactly when
`votes * 3 > voters * 2`, equivalently when at least `floor(2n/3) + 1`
votes are present; this coincides with the `ceil(2n/3)` threshold exactly
when the voter count is divisible by 3. -/
theorem c7_quorum_threshold (n v : Nat) :
    (quorum n v = true ↔ v * QUORUM_DENOMINATOR > n * QUORUM_NUMERATOR) ∧
    (quorum n v = true ↔ (2 * n) / 3 + 1 ≤ v) ∧
    ((2 * n) / 3 = (2 * n + 2) / 3 ↔ n % 3 = 0) := by
  refine ⟨?_, ?_, ?_⟩
  · simp only [quorum, QUORUM_NUMERATOR, QUORUM_DENOMINATOR, decide_eq_true_eq]
  · simp only [quorum, QUORUM_NUMERATOR, QUORUM_DENOMINATOR, decide_eq_true_eq]
    omega
  · omega

/-- C7 witness: the amended equivalence evaluated at 6 voters, 5 votes. -/
theorem c7_witness : quorum 6 5 = true ↔ (2 * 6) / 3 + 1 ≤ 5 :=
  (c7_quorum_threshold 6 5).2.1

/-- C8 counterexample: at the counter value `u32::MAX` the checked
addition fails, so `increment` leaves the stored counter unchanged and
returns `false` instead of adding one as the claim states. -/
theorem c8_counterexample :
    AgeCounter.increment ⟨U32_MAX⟩ = (⟨U32_MAX⟩, false) ∧
      (AgeCounter.increment ⟨U32_MAX⟩).1.val ≠ U32_MAX + 1 := by
  refine ⟨?_, ?_⟩ <;> decide

/-- C8 (amended): for every age between `MIN_AGE` and 31, `from_age`
stores exactly `2 ^ age` and `age()` recovers the age; and whenever the
stored counter is below `u32::MAX`, `increment` adds one and reports that
the age advanced exactly when the new value is a power of two (at
`u32::MAX` the counter instead stays unchanged and `false` is returned,
per the counterexample). -/
theorem c8_age_counter :
    (∀ a : Nat, MIN_AGE ≤ a → a ≤ 31 →
      (AgeCounter.from_age a).val = 2 ^ a ∧ (AgeCounter.from_age a).age = a) ∧
    (∀ v : Nat, v + 1 ≤ U32_MAX →
      AgeCounter.increment ⟨v⟩ = (⟨v + 1⟩, is_power_of_two (v + 1))) ∧
    (∀ v : Nat, is_power_of_two v = true ↔ ∃ k, v = 2 ^ k) := by
  refine ⟨?_, ?_, ?_⟩
  · intro a h4 h31
    exact ⟨from_age_val_of_le a h4 h31, from_age_age_of_le a h4 h31⟩
  · intro v hv
    simp [AgeCounter.increment, hv]
  · intro v
    constructor
    · intro h
      simp only [is_power_of_two, decide_eq_true_eq] at h
      exact ⟨Nat.log2 v, h.2.symm⟩
    · rintro ⟨k, rfl⟩
      simp only [is_power_of_two, decide_eq_true_eq]
      refine ⟨by positivity, ?_⟩
      rw [log2_two_pow]

/-- C8 witness: the amended statement evaluated at age 10 and at the
counter value 16. -/
theorem c8_witness :
    ((AgeCounter.from_age 10).val = 2 ^ 10 ∧ (AgeCounter.from_age 10).age = 10) ∧
      AgeCounter.increment ⟨16⟩ = (⟨17⟩, is_power_of_two 17) :=
  ⟨c8_age_counter.1 10 (by decide) (by decide), c8_age_counter.2.1 16 (by decide)⟩

/-- C9: ages below `MIN_AGE = 4` are silently clamped: `from_age` agrees
with `from_age 4` and stores 16, `MemberInfo::new` reports age 4, and the
default age counter also has age 4. -/
theorem c9_min_age_clamp (a : Nat) (p : P2pNode) (pr : ConsensusProof)
    (h : a < MIN_AGE) :
    AgeCounter.from_age a = AgeCounter.from_age MIN_AGE ∧
    (AgeCounter.from_age a).val = 16 ∧
    (MemberInfo.new a p pr).age = MIN_AGE ∧
    AgeCounter.default.age = MIN_AGE := by
  have hmax : max a MIN_AGE = MIN_AGE := Nat.max_eq_right (le_of_lt h)
  have h1 : AgeCounter.from_age a = AgeCounter.from_age MIN_AGE := by
    simp [AgeCounter.from_age, hmax]
  have hval : (AgeCounter.from_age MIN_AGE).val = 16 :=
    from_age_val_of_le MIN_AGE (le_refl _) (by norm_num [MIN_AGE])
  refine ⟨h1, ?_, ?_, ?_⟩
  · rw [h1, hval]
  · show (AgeCounter.from_age a).age = MIN_AGE
    rw [h1]
    exact from_age_age_of_le MIN_AGE (le_refl _) (by norm_num [MIN_AGE])
  · show Nat.log2 (16 : Nat) = MIN_AGE
    rw [show (16 : Nat) = 2 ^ 4 by norm_num, log2_two_pow]
    rfl

/-- C9 witness: the clamp evaluated at age 2. -/
theorem c9_witness :
    AgeCounter.from_age 2 = AgeCounter.from_age MIN_AGE ∧
    (AgeCounter.from_age 2).val = 16 ∧
    (MemberInfo.new 2 (P2pNode.new (PublicId.new ⟨[]⟩ ⟨0⟩) ⟨0⟩)
      ⟨pk0, sk0.sign (.keyBytes pk0)⟩).age = MIN_AGE ∧
    AgeCounter.default.age = MIN_AGE :=
  c9_min_age_clamp 2 (P2pNode.new (PublicId.new ⟨[]⟩ ⟨0⟩) ⟨0⟩)
    ⟨pk0, sk0.sign (.keyBytes pk0)⟩ (by decide)

/-- C10: extending a message that carries no proof chain always fails with
`NoProofChain` and never produces a message. -/
theorem c10_extend_no_proof_chain (m : Message) (k : BlsPublicKey)
    (donor : SectionProofChain) (h : m.proof_chain = none) :
    m.extend_proof_chain k donor = .error .NoProofChain := by
  simp [Message.extend_proof_chain, h]

/-- C10 witness: the chain-less fixture message refused at a concrete key
and donor. -/
theorem c10_witness : msgNC.extend_proof_chain pk0 chain01 = .error .NoProofChain :=
  c10_extend_no_proof_chain msgNC pk0 chain01 rfl

/-- C1 counterexample: a Section-src envelope with no proof chain and a
signature that verifies nothing is accepted by `from_bytes` (the
single-signature check is skipped when the chain is absent), while the
claim demands failure with `FailedSignature`. -/
theorem c1_counterexample :
    Message.from_bytes wireNC = .ok msgNC ∧ msgNC.proof_chain = none ∧
      msgNC.src = .Section ⟨[]⟩ ⟨⟨999⟩, .keyBytes ⟨999⟩⟩ :=
  ⟨rfl, rfl, rfl⟩

/-- C1 (amended): `from_bytes` succeeds iff a Node source's Ed25519
signature verifies over the signable view and, when a Section source
carries a proof chain, the BLS signature verifies under the chain's last
key; a Section source without a proof chain is accepted with no signature
check at all (the presence and trust checks are deferred to `verify`), and
every failure is `FailedSignature`. -/
theorem c1_from_bytes_check (w : WireData) :
    ((Message.from_bytes w).isOk = true ↔
      ((∀ pk a sg, w.src = .Node pk a sg → ed_verify pk w.signable sg = true) ∧
       (∀ q sg pc, w.src = .Section q sg → w.proof_chain = some pc →
         pc.last_key.verify sg w.signable = true))) ∧
    (∀ q sg, w.src = .Section q sg → w.proof_chain = none →
      Message.from_bytes w =
        .ok ⟨w.src, w.dst, w.variant, w.proof_chain, w.dst_key, w,
          MessageHash.from_bytes w⟩) ∧
    ((Message.from_bytes w).isOk = false →
      Message.from_bytes w = .error .FailedSignature) := by
  rcases hsrc : w.src with ⟨pk, a, sg⟩ | ⟨q, sg⟩
  · by_cases hv : ed_verify pk w.signable sg = true
    · have hok : Message.from_bytes w =
          .ok ⟨w.src, w.dst, w.variant, w.proof_chain, w.dst_key, w,
            MessageHash.from_bytes w⟩ := by
        simp [Message.from_bytes, hsrc, hv]
      refine ⟨?_, ?_, ?_⟩
      · rw [hok]
        constructor
        · intro _
          refine ⟨?_, ?_⟩
          · intro pk' a' sg' heq
            cases heq
            exact hv
          · intro q' sg' pc' heq
            exact absurd heq (by simp)
        · intro _
          rfl
      · intro q' sg' heq
        exact absurd heq (by simp)
      · intro hfalse
        rw [hok] at hfalse
        simp [Except.isOk, Except.toBool] at hfalse
    · have herr : Message.from_bytes w = .error .FailedSignature := by
        simp [Message.from_bytes, hsrc, hv]
      refine ⟨?_, ?_, ?_⟩
      · rw [herr]
        constructor
        · intro habs
          simp [Except.isOk, Except.toBool] at habs
        · rintro ⟨hnode, _⟩
          exact absurd (hnode pk a sg rfl) hv
      · intro q' sg' heq
        exact absurd heq (by simp)
      · intro _
        exact herr
  · rcases hpc : w.proof_chain with _ | pc
    · have hok : Message.from_bytes w =
          .ok ⟨.Section q sg, w.dst, w.variant, none, w.dst_key, w,
            MessageHash.from_bytes w⟩ := by
        simp [Message.from_bytes, hsrc, hpc]
      refine ⟨?_, ?_, ?_⟩
      · rw [hok]
        constructor
        · intro _
          refine ⟨?_, ?_⟩
          · intro pk' a' sg' heq
            exact absurd heq (by simp)
          · intro q' sg' pc' _ hpc'
            exact absurd hpc' (by simp)
        · intro _
          rfl
      · intro q' sg' _ _
        exact hok
      · intro hfalse
        rw [hok] at hfalse
        simp [Except.isOk, Except.toBool] at hfalse
    · by_cases hv : pc.last_key.verify sg w.signable = true
      · have hok : Message.from_bytes w =
            .ok ⟨w.src, w.dst, w.variant, w.proof_chain, w.dst_key, w,
              MessageHash.from_bytes w⟩ := by
          simp [Message.from_bytes, hsrc, hpc, hv]
        refine ⟨?_, ?_, ?_⟩
        · rw [hok]
          constructor
          · intro _
            refine ⟨?_, ?_⟩
            · intro pk' a' sg' heq
              exact absurd heq (by simp)
            · intro q' sg' pc' heq hpc'
              cases heq
              cases hpc'
              exact hv
          · intro _
            rfl
        · intro q' sg' _ hnone
          exact absurd hnone (by simp)
        · intro hfalse
          rw [hok] at hfalse
          simp [Except.isOk, Except.toBool] at hfalse
      · have herr : Message.from_bytes w = .error .FailedSignature := by
          simp [Message.from_bytes, hsrc, hpc, hv]
        refine ⟨?_, ?_, ?_⟩
        · rw [herr]
          constructor
          · intro habs
            simp [Except.isOk, Except.toBool] at habs
          · rintro ⟨_, hsec⟩
            exact absurd (hsec q sg pc rfl rfl) hv
        · intro q' sg' _ hnone
          exact absurd hnone (by simp)
        · intro _
          exact herr

/-- C1 witness: the amended statement applied to the chain-less Section
envelope, showing acceptance without any signature check. -/
theorem c1_witness :
    Message.from_bytes wireNC =
      .ok ⟨wireNC.src, wireNC.dst, wireNC.variant, wireNC.proof_chain, wireNC.dst_key,
        wireNC, MessageHash.from_bytes wireNC⟩ :=
  (c1_from_bytes_check wireNC).2.1 ⟨[]⟩ ⟨⟨999⟩, .keyBytes ⟨999⟩⟩ rfl rfl

/-- C2: for a Section-src message, `verify` fails with `InvalidMessage`
when the proof chain is absent, fails with `FailedSignature` when the
chain's last key does not verify the BLS signature over the signable
bytes, and otherwise returns `Full`, returns `Unknown`, or fails with
`UntrustedMessage` exactly as `check_trust` over the compatible anchors
yields `Trusted`, `Unknown`, or `Invalid`. -/
theorem c2_verify_section (m : Message) (q : Pfx) (sg : BlsSignature)
    (tk : List (Pfx × BlsPublicKey)) (hsrc : m.src = .Section q sg) :
    (m.proof_chain = none → m.verify tk = .error .InvalidMessage) ∧
    (∀ pc, m.proof_chain = some pc →
      (pc.last_key.verify sg m.signable = false →
        m.verify tk = .error .FailedSignature) ∧
      (pc.last_key.verify sg m.signable = true →
        ((pc.check_trust ((tk.filter fun p => q.is_compatible p.1).map Prod.snd) =
            .Trusted → m.verify tk = .ok .Full) ∧
         (pc.check_trust ((tk.filter fun p => q.is_compatible p.1).map Prod.snd) =
            .Unknown → m.verify tk = .ok .Unknown) ∧
         (pc.check_trust ((tk.filter fun p => q.is_compatible p.1).map Prod.snd) =
            .Invalid → m.verify tk = .error .UntrustedMessage)))) := by
  refine ⟨?_, ?_⟩
  · intro hnone
    simp [Message.verify, hsrc, hnone]
  · intro pc hpc
    refine ⟨?_, ?_⟩
    · intro hsig
      simp [Message.verify, hsrc, hpc, hsig]
    · intro hsig
      refine ⟨?_, ?_, ?_⟩ <;> intro hct <;> simp [Message.verify, hsrc, hpc, hsig, hct]

/-- C2 witness: the section fixture message fully verified under its own
section key as anchor. -/
theorem c2_witness : msgS.verify [(⟨[]⟩, pk1)] = .ok .Full :=
  (((c2_verify_section msgS ⟨[]⟩ sigS [(⟨[]⟩, pk1)] rfl).2 chain1 rfl).2
    (by decide)).1 (by decide)

/-- C5: the bytes every signer and verifier use are the canonical
serialisation of the triple `(dst, dst_key, variant)`; the `src` field
does not participate, so messages that agree on those three fields have
identical signable bytes and any signature valid for one is valid for the
other; `single_src` signs exactly that triple. -/
theorem c5_signable_view (m1 m2 : Message)
    (hd : m1.dst = m2.dst) (hk : m1.dst_key = m2.dst_key)
    (hv : m1.variant = m2.variant) :
    m1.signable = m2.signable ∧
    m1.signable = .signableBytes ⟨m1.dst, m1.dst_key, m1.variant⟩ ∧
    (∀ (node : Node) (dst : DstLocation) (variant : Variant)
        (pc : Option SectionProofChain) (dk : Option BlsPublicKey),
      (Message.single_src node dst variant pc dk).src =
        .Node node.keypair.public_key node.age
          (ed_sign node.keypair (signable_bytes dst dk variant))) ∧
    (∀ pk sg, ed_verify pk m1.signable sg = ed_verify pk m2.signable sg) ∧
    (∀ k sg, BlsPublicKey.verify k sg m1.signable = BlsPublicKey.verify k sg m2.signable) := by
  have he : m1.signable = m2.signable := by
    simp [Message.signable, signable_bytes, hd, hk, hv]
  exact ⟨he, rfl, fun _ _ _ _ _ => rfl, fun pk sg => by rw [he], fun k sg => by rw [he]⟩

/-- C5 witness: a Node-src and a Section-src fixture that agree on
`(dst, dst_key, variant)` have the same signable bytes. -/
theorem c5_witness :
    (Message.new_signed (.Section ⟨[]⟩ sigS) msgA.dst msgA.variant msgA.proof_chain
      msgA.dst_key).signable = msgA.signable :=
  (c5_signable_view
    (Message.new_signed (.Section ⟨[]⟩ sigS) msgA.dst msgA.variant msgA.proof_chain
      msgA.dst_key) msgA rfl rfl rfl).1

/-- C6: the result of `verify` depends only on the anchors relevant to the
message source — for a Node source those whose `Pfx` matches the name of
the source key, for a Section source those whose `Pfx` is compatible with
the source `Pfx`: anchor lists that agree after that filter verify
identically. -/
theorem c6_verify_relevant_anchors (m : Message)
    (tk1 tk2 : List (Pfx × BlsPublicKey))
    (h : m.relevant_anchors tk1 = m.relevant_anchors tk2) :
    m.verify tk1 = m.verify tk2 := by
  rcases hsrc : m.src with ⟨pk, a, sg⟩ | ⟨q, sg⟩ <;>
    simp only [Message.relevant_anchors, hsrc] at h <;>
    simp only [Message.verify, hsrc, h]

/-- C6 witness: adding an anchor whose `Pfx` does not match the Node
source's name leaves the verification result unchanged. -/
theorem c6_witness :
    msgA.verify [(⟨[true]⟩, pk0)] =
      msgA.verify [(⟨[true]⟩, pk0), (⟨[false]⟩, pk1)] :=
  c6_verify_relevant_anchors msgA [(⟨[true]⟩, pk0)]
    [(⟨[true]⟩, pk0), (⟨[false]⟩, pk1)] (by decide)

theorem from_bytes_node_ok (w : WireData) (pk : EdPublicKey) (a : Nat) (sg : EdSignature)
    (hsrc : w.src = .Node pk a sg) (hv : ed_verify pk w.signable sg = true) :
    Message.from_bytes w =
      .ok ⟨w.src, w.dst, w.variant, w.proof_chain, w.dst_key, w,
        MessageHash.from_bytes w⟩ := by
  simp [Message.from_bytes, hsrc, hv]

theorem from_bytes_section_ok (w : WireData) (q : Pfx) (sg : BlsSignature)
    (pc : SectionProofChain) (hsrc : w.src = .Section q sg)
    (hpc : w.proof_chain = some pc)
    (hv : pc.last_key.verify sg w.signable = true) :
    Message.from_bytes w =
      .ok ⟨w.src, w.dst, w.variant, w.proof_chain, w.dst_key, w,
        MessageHash.from_bytes w⟩ := by
  simp [Message.from_bytes, hsrc, hpc, hv]

theorem from_bytes_to_bytes (b : WireData) (m : Message)
    (h : Message.from_bytes b = .ok m) : m.to_bytes = b := by
  dsimp only [Message.from_bytes] at h
  split at h
  · exact absurd h (by simp)
  · cases Except.ok.inj h
    rfl

/-- C4: every message the core produces — via `single_src`, via
`section_src` with a valid combined signature, or via `from_bytes` —
round-trips: `from_bytes(to_bytes)` succeeds and yields a message equal to
the original under the field-wise equality that ignores `serialized` and
`hash`. -/
theorem c4_roundtrip (m : Message) (h : ProducedByCore m) :
    ∃ m', Message.from_bytes m.to_bytes = .ok m' ∧ message_eq m' m = true := by
  rcases h with ⟨node, dst, variant, pc, dk⟩ | ⟨plain, sg, pc, hsig⟩ | ⟨b, m, hfb⟩
  · refine ⟨_, from_bytes_node_ok _ node.keypair.public_key node.age
      (ed_sign node.keypair (signable_bytes dst dk variant)) rfl ?_, ?_⟩
    · show ed_verify node.keypair.public_key (signable_bytes dst dk variant)
        (ed_sign node.keypair (signable_bytes dst dk variant)) = true
      simp [ed_verify, ed_sign]
    · simp [message_eq, Message.single_src, Message.new_signed, Message.to_bytes]
  · refine ⟨_, from_bytes_section_ok _ plain.src sg pc rfl rfl ?_, ?_⟩
    · exact hsig
    · simp [message_eq, Message.section_src, Message.new_signed, Message.to_bytes]
  · have hb := from_bytes_to_bytes b m hfb
    refine ⟨m, ?_, ?_⟩
    · rw [hb]
      exact hfb
    · simp [message_eq]

/-- C4 witness: the round trip evaluated on the Node-src fixture. -/
theorem c4_witness :
    ∃ m', Message.from_bytes msgA.to_bytes = .ok m' ∧ message_eq m' msgA = true :=
  c4_roundtrip msgA
    (ProducedByCore.single_src nodeA (.Section [true]) (.UserMessage [1, 2])
      (some chain1) (some pk1))

theorem status_le_full (s : VerifyStatus) : status_le s .Full = true := by
  cases s <;> rfl

theorem variant_not_approval_verify (v : Variant) (hna : ∀ x, v ≠ .NodeApproval x)
    (opc : Option SectionProofChain) (T : List BlsPublicKey) :
    v.verify opc T = .ok .Full := by
  cases v
  case NodeApproval x => exact absurd rfl (hna x)
  all_goals rfl

theorem extend_check_trust (pc donor pc' : SectionProofChain) (k : BlsPublicKey)
    (A : List BlsPublicKey)
    (hvc : pc.all_links_valid = true) (hvd : donor.all_links_valid = true)
    (hx : pc.extend k donor = .ok pc') :
    (pc.check_trust A = .Trusted → pc'.check_trust A = .Trusted) ∧
    (pc'.check_trust A = .Trusted ∨ pc'.check_trust A = .Unknown) ∧
    (k ∈ A → pc'.check_trust A = .Trusted) := by
  have hvalid' := extend_ok_valid pc donor pc' k hvc hvd hx
  have hall := check_trust_all_valid pc' A hvalid'
  refine ⟨?_, hall.1, ?_⟩
  · intro ht
    obtain ⟨k0, hk0, hk0T⟩ := (check_trust_all_valid pc A hvc).2.mp ht
    exact hall.2.mpr ⟨k0, extend_ok_keys pc donor pc' k k0 hx hk0, hk0T⟩
  · intro hk
    have hh : k = pc'.head := (extend_ok_first pc donor pc' k hx).symm
    exact hall.2.mpr ⟨k, by rw [hh]; exact List.mem_cons_self _ _, hk⟩

/-- C3: extending the proof chain of any message that carries one (the
chains involved satisfying the chain invariant of spec section 3 that
every link verifies) yields a message whose chain starts at the new first
key with the last key unchanged, all other fields — including the source
attestation and therefore the signature — unchanged, and which, whenever
the original verified, verifies under the same anchors with at least the
original status; if the new first key is itself a relevant trusted anchor
the extended message verifies as `Full`. -/
theorem c3_extend_proof_chain (m m' : Message) (k : BlsPublicKey)
    (donor pc : SectionProofChain)
    (hpc : m.proof_chain = some pc)
    (hvc : pc.all_links_valid = true)
    (hvd : donor.all_links_valid = true)
    (hext : m.extend_proof_chain k donor = .ok m') :
    (∃ pc', m'.proof_chain = some pc' ∧ pc'.first_key = k ∧
      pc'.last_key = pc.last_key) ∧
    m'.src = m.src ∧ m'.dst = m.dst ∧ m'.variant = m.variant ∧
    m'.dst_key = m.dst_key ∧
    (∀ tk s, m.verify tk = .ok s →
      ∃ s', m'.verify tk = .ok s' ∧ status_le s s' = true ∧
        (k ∈ (m.relevant_anchors tk).map Prod.snd → s' = .Full)) := by
  -- unpack the extension
  dsimp only [Message.extend_proof_chain] at hext
  rw [hpc] at hext
  dsimp only at hext
  rcases hx : pc.extend k donor with e | pc'
  · rw [hx] at hext
    exact absurd hext (by simp)
  rw [hx] at hext
  dsimp only at hext
  cases Except.ok.inj hext
  have hfirst := extend_ok_first pc donor pc' k hx
  have hlast := extend_ok_last pc donor pc' k hx
  refine ⟨⟨pc', rfl, hfirst, hlast⟩, rfl, rfl, rfl, rfl, ?_⟩
  intro tk s hver
  rcases hsrc : m.src with ⟨pk, a, sg⟩ | ⟨q, sg⟩
  · -- Node source: the Ed25519 check and the variant-specific check
    simp only [Message.verify, Message.signable, hsrc, hpc] at hver
    by_cases hed : ed_verify pk (signable_bytes m.dst m.dst_key m.variant) sg = true
    swap
    · rw [if_neg hed] at hver
      exact absurd hver (by simp)
    rw [if_pos hed] at hver
    by_cases hna : ∃ x, m.variant = .NodeApproval x
    · obtain ⟨x, hvv⟩ := hna
      rw [hvv] at hver hed
      dsimp only [Variant.verify] at hver
      have hmono := extend_check_trust pc donor pc' k
        ((tk.filter fun p => p.1.matchesName (name pk)).map Prod.snd) hvc hvd hx
      rcases hct' : pc'.check_trust
          ((tk.filter fun p => p.1.matchesName (name pk)).map Prod.snd) with _ | _ | _
      · refine ⟨.Full, ?_, status_le_full s, fun _ => rfl⟩
        simp only [Message.verify, Message.new_signed, Message.signable, hvv]
        rw [if_pos hed]
        dsimp only [Variant.verify]
        rw [hct']
      · have hs : s = .Unknown := by
          rcases hct : pc.check_trust
              ((tk.filter fun p => p.1.matchesName (name pk)).map Prod.snd) with _ | _ | _
          · exfalso
            have hT := hmono.1 hct
            rw [hct'] at hT
            exact absurd hT (by simp)
          · rw [hct] at hver
            exact (Except.ok.inj hver).symm
          · rw [hct] at hver
            exact absurd hver (by simp)
        subst hs
        refine ⟨.Unknown, ?_, rfl, ?_⟩
        · simp only [Message.verify, Message.new_signed, Message.signable, hvv]
          rw [if_pos hed]
          dsimp only [Variant.verify]
          rw [hct']
        · intro hk
          simp only [Message.relevant_anchors, hsrc] at hk
          have hT := hmono.2.2 hk
          rw [hct'] at hT
          exact absurd hT (by simp)
      · rcases hmono.2.1 with h | h <;> rw [hct'] at h <;> exact absurd h (by simp)
    · push_neg at hna
      rw [variant_not_approval_verify m.variant hna (some pc)
        ((tk.filter fun p => p.1.matchesName (name pk)).map Prod.snd)] at hver
      cases Except.ok.inj hver
      refine ⟨.Full, ?_, by decide, fun _ => rfl⟩
      simp only [Message.verify, Message.new_signed, Message.signable]
      rw [if_pos hed]
      exact variant_not_approval_verify m.variant hna (some pc') _
  · -- Section source: the BLS check and check_trust
    simp only [Message.verify, Message.signable, hsrc, hpc] at hver
    by_cases hsig :
      pc.last_key.verify sg (signable_bytes m.dst m.dst_key m.variant) = true
    swap
    · rw [if_neg hsig] at hver
      exact absurd hver (by simp)
    rw [if_pos hsig] at hver
    have hsig' :
        pc'.last_key.verify sg (signable_bytes m.dst m.dst_key m.variant) = true := by
      rw [hlast]
      exact hsig
    have hmono := extend_check_trust pc donor pc' k
      ((tk.filter fun p => q.is_compatible p.1).map Prod.snd) hvc hvd hx
    rcases hct' : pc'.check_trust
        ((tk.filter fun p => q.is_compatible p.1).map Prod.snd) with _ | _ | _
    · refine ⟨.Full, ?_, status_le_full s, fun _ => rfl⟩
      simp only [Message.verify, Message.new_signed, Message.signable]
      rw [if_pos hsig', hct']
    · have hs : s = .Unknown := by
        rcases hct : pc.check_trust
            ((tk.filter fun p => q.is_compatible p.1).map Prod.snd) with _ | _ | _
        · exfalso
          have hT := hmono.1 hct
          rw [hct'] at hT
          exact absurd hT (by simp)
        · rw [hct] at hver
          exact (Except.ok.inj hver).symm
        · rw [hct] at hver
          exact absurd hver (by simp)
      subst hs
      refine ⟨.Unknown, ?_, rfl, ?_⟩
      · simp only [Message.verify, Message.new_signed, Message.signable]
        rw [if_pos hsig', hct']
      · intro hk
        simp only [Message.relevant_anchors, hsrc] at hk
        have hT := hmono.2.2 hk
        rw [hct'] at hT
        exact absurd hT (by simp)
    · rcases hmono.2.1 with h | h <;> rw [hct'] at h <;> exact absurd h (by simp)

/-- C3 witness: the section fixture message, extended back to `pk0` with
the two-key donor chain; its chain now starts at `pk0`, keeps `pk1` as
last key, and under the anchor `pk0` — a relevant anchor equal to the new
first key — it verifies as `Full` though the original only reached
`Unknown`. -/
theorem c3_witness :
    (∃ pc', msgSx.proof_chain = some pc' ∧ pc'.first_key = pk0 ∧
      pc'.last_key = chain1.last_key) ∧
    msgSx.src = msgS.src ∧ msgSx.dst = msgS.dst ∧ msgSx.variant = msgS.variant ∧
    msgSx.dst_key = msgS.dst_key ∧
    (∀ tk s, msgS.verify tk = .ok s →
      ∃ s', msgSx.verify tk = .ok s' ∧ status_le s s' = true ∧
        (pk0 ∈ (msgS.relevant_anchors tk).map Prod.snd → s' = .Full)) :=
  c3_extend_proof_chain msgS msgSx pk0 chain01 chain1 rfl (by decide) (by decide)
    (by rfl)

end Routing
